import Mathlib

/-!
Verification development for the multi-channel table formatter
(`Output` in `multi_cmd_window.py`).

Python strings are modelled as `List Char` (`Str`); machine behaviour of
the string methods used by the source (`strip`, `rfind`, `split("\n")`,
`ljust`, `center`, slicing) is embedded explicitly below.  The wrap loop
in `print_all_data` can fail to terminate (it is a `while` loop), so it
is embedded with explicit fuel; `none` marks a run that did not finish
within the given fuel (or a run that raises, where noted).
-/

/-- Python strings are modelled as lists of characters. -/
abbrev Str := List Char

/-- The whitespace class of CPython's `str.strip()` / `str.isspace()`
restricted to ASCII: space, tab, newline, carriage return, vertical tab,
form feed. -/
def pyIsSpace (c : Char) : Bool :=
  c == ' ' || c == '\t' || c == '\n' || c == '\r' || c == '\x0b' || c == '\x0c'

/-- Remove trailing whitespace (the right half of Python `str.strip()`). -/
def stripRight (s : Str) : Str :=
  (s.reverse.dropWhile pyIsSpace).reverse

/-- Python `s.strip()`: drop leading and trailing whitespace. -/
def pyStrip (s : Str) : Str :=
  stripRight (s.dropWhile pyIsSpace)

/-- Downward scan for `s.rfind(" ", 0, end)`: the largest index `i < k`
with `s[i] = ' '`, scanning from `k-1` down, as CPython's `rfind` does. -/
def rfindSpaceAux (s : Str) : Nat → Option Nat
  | 0 => none
  | i + 1 => if s.get? i == some ' ' then some i else rfindSpaceAux s i

/-- Python `part.rfind(" ", 0, endIdx)` (result `-1` is modelled as
`none`): index of the last space strictly before `endIdx`. -/
def pyRfindSpace (s : Str) (endIdx : Nat) : Option Nat :=
  rfindSpaceAux s (min endIdx s.length)

/-- The split index chosen by one iteration of the wrap loop in
`print_all_data`: with `smart_wrap`, the last space in the first
`column_width` characters, falling back to `column_width`; without it,
always `column_width`.  (Source lines 72–78.) -/
def splitIdx (smart : Bool) (cw : Nat) (part : Str) : Nat :=
  if smart then (pyRfindSpace part cw).getD cw else cw

/-- The `while len(part) > column_width` loop of `print_all_data`
(source lines 71–81), with explicit fuel: each iteration appends
`part[:split_index].strip()` and continues with `part[split_index:].strip()`;
on exit the final `part` is appended untrimmed.  `none` = fuel exhausted
(the source loop does not terminate for some inputs, see below). -/
def wrapGo (smart : Bool) (cw : Nat) : Nat → Str → Option (List Str)
  | 0, _ => none
  | fuel + 1, part =>
    if part.length > cw then
      (wrapGo smart cw fuel (pyStrip (part.drop (splitIdx smart cw part)))).map
        (fun rest => pyStrip (part.take (splitIdx smart cw part)) :: rest)
    else
      some [part]

/-- The wrap loop run with fuel `part.length + 1`, which suffices
whenever `column_width ≥ 1` (proved below). -/
def wrap (smart : Bool) (cw : Nat) (part : Str) : Option (List Str) :=
  wrapGo smart cw (part.length + 1) part

/-- Python `data.split("\n")`: split on every newline, keeping empty
pieces; the empty string splits to `[""]`. -/
def splitLines : Str → List Str
  | [] => [[]]
  | c :: rest =>
    if c = '\n' then [] :: splitLines rest
    else
      match splitLines rest with
      | h :: t => (c :: h) :: t
      | [] => [[c]]

/-- Wrapping of one channel's accumulated entries (source lines 69–81):
each entry is split on newlines and every resulting paragraph is wrapped;
the fragments are concatenated in order. -/
def wrapChannel (smart : Bool) (cw : Nat) (channel : List Str) : Option (List Str) :=
  ((channel.flatMap splitLines).mapM (wrap smart cw)).map List.flatten

/-- Python `s.ljust(w)` (for the `Int`-valued widths of the source):
pad on the right with spaces up to width `w`; a width `≤ len(s)` leaves
`s` unchanged. -/
def pyLjust (s : Str) (w : Int) : Str :=
  s ++ List.replicate (w - (s.length : Int)).toNat ' '

/-- Python `s.center(w)`: CPython computes `marg = w - len(s)` and puts
`marg / 2 + (marg & w & 1)` fill characters on the left; a width
`≤ len(s)` leaves `s` unchanged. -/
def pyCenter (s : Str) (w : Int) : Str :=
  if (s.length : Int) ≥ w then s
  else
    let marg := (w - (s.length : Int)).toNat
    let left := marg / 2 + (marg &&& w.toNat &&& 1)
    List.replicate left ' ' ++ s ++ List.replicate (marg - left) ' '

/-- Python `s[:w]` for an `Int` bound: a negative bound counts from the
end of the string. -/
def pySliceTo (s : Str) (w : Int) : Str :=
  if 0 ≤ w then s.take w.toNat else s.take ((s.length : Int) + w).toNat

/-- The state of an `Output` object (`multi_cmd_window.py`).  Widths are
`Option Int`: `none` is Python's `None` (an unresolved width). -/
structure Output where
  no_channels : Int
  total_width : Int
  partition_char : Str
  horizontal_line_char : Str
  border : Bool
  verbose : Bool
  headers : Option (List Str)
  channel_data : List (List Str)
  channel_widths : List (Option Int)
deriving Repr, DecidableEq

/-- The width-resolution block of `Output.__init__` (source lines
22–39): compute the remaining width after the specified widths and the
`no_channels - 1` partition columns; if positive, give every
unspecified channel `remaining // num_none` (Python floor division,
`Int.fdiv`); otherwise leave the widths unchanged. -/
def resolveWidths (no_channels total_width : Int) (widths0 : List (Option Int)) :
    List (Option Int) :=
  if total_width - (widths0.filterMap id).sum - (no_channels - 1) < 0 then widths0
  else if total_width - (widths0.filterMap id).sum - (no_channels - 1) > 0 then
    if 0 < widths0.count none then
      widths0.map (fun w =>
        match w with
        | none =>
          some ((total_width - (widths0.filterMap id).sum - (no_channels - 1)).fdiv
            (widths0.count none : Int))
        | some x => some x)
    else widths0
  else widths0

/-- `Output.add_data` (source lines 50–55): append `str(data)` to the
indexed channel, or raise `ValueError` for an out-of-range index.
Entries are already modelled as strings, so `str(data)` is the
identity. -/
def Output.add_data (o : Output) (channel_index : Int) (data : Str) :
    Except String Output :=
  if 0 ≤ channel_index ∧ channel_index < o.no_channels then
    let newData :=
      o.channel_data.set channel_index.toNat
        ((o.channel_data.getD channel_index.toNat []) ++ [data])
    .ok { o with channel_data := newData }
  else
    .error "Invalid channel index."

/-- The seeding loop at the end of `__init__` (source lines 41–48):
for each `(i, data)` of `enumerate(channel_data)`, call `add_data` when
`i < no_channels` and skip the entry (verbose warning only) otherwise;
an exception from `add_data` would propagate. -/
def Output.seed : Output → List (Nat × Str) → Except String Output
  | o, [] => .ok o
  | o, (i, d) :: rest =>
    if (i : Int) < o.no_channels then
      match o.add_data (i : Int) d with
      | .ok o' => o'.seed rest
      | .error e => .error e
    else
      o.seed rest

/-- The object state assembled by `Output.__init__` before the seeding
loop runs (source lines 2–39): headers are kept only when truthy and of
length `no_channels`; a falsy `channel_widths` (absent or empty)
becomes `no_channels` unresolved widths; widths are then resolved. -/
def Output.init0 (no_channels : Int) (total_width : Int) (partition_char : Str)
    (border : Bool) (headers : Option (List Str))
    (channel_widths : Option (List (Option Int)))
    (horizontal_line_char : Str) (verbose : Bool) : Output :=
  { no_channels := no_channels
    total_width := total_width
    partition_char := partition_char
    horizontal_line_char := horizontal_line_char
    border := border
    verbose := verbose
    headers :=
      match headers with
      | some hs => if hs ≠ [] ∧ (hs.length : Int) = no_channels then some hs else none
      | none => none
    channel_data := List.replicate no_channels.toNat []
    channel_widths :=
      resolveWidths no_channels total_width
        (match channel_widths with
         | some l => if l ≠ [] then l else List.replicate no_channels.toNat none
         | none => List.replicate no_channels.toNat none) }

/-- `Output.__init__` (source lines 2–48): assemble the state, then
seed any provided `channel_data`.  The constructor itself never raises,
but the result is `Except` because the seeding loop calls
`add_data`. -/
def Output.init (no_channels : Int) (channel_data : Option (List Str))
    (total_width : Int) (partition_char : Str) (border : Bool)
    (headers : Option (List Str)) (channel_widths : Option (List (Option Int)))
    (horizontal_line_char : Str) (verbose : Bool) : Except String Output :=
  match channel_data with
  | none => .ok (Output.init0 no_channels total_width partition_char border
      headers channel_widths horizontal_line_char verbose)
  | some ds => (Output.init0 no_channels total_width partition_char border
      headers channel_widths horizontal_line_char verbose).seed ds.enum

/-- The wrap phase of `print_all_data` (source lines 64–82): for each
channel `i`, `column_width = self.channel_widths[i]` (an `IndexError`
when the width list is too short is modelled as `none`), then the
channel's entries are wrapped.  An empty channel never compares a
length against its width, so an unresolved (`None`) width only fails —
Python raises `TypeError` at `len(part) > column_width` — when the
channel has at least one entry.  Negative explicit widths (never
produced by `resolveWidths`) are outside the modelled domain and also
map to `none`. -/
def wrapAllW (smart : Bool) : List (List Str) → List (Option Int) →
    Option (List (List Str))
  | [], _ => some []
  | _ :: _, [] => none
  | ch :: chs, w :: ws =>
    let rows? : Option (List Str) :=
      match ch with
      | [] => some []
      | _ :: _ =>
        match w with
        | some wi => if 0 ≤ wi then wrapChannel smart wi.toNat ch else none
        | none => none
    match rows?, wrapAllW smart chs ws with
    | some rows, some rest => some (rows :: rest)
    | _, _ => none

/-- A border line (source lines 89, 96, 118):
`"+" + horizontal_line_char * (total_width - 2) + "+"`. -/
def borderLine (total_width : Int) (hlc : Str) : Str :=
  '+' :: (List.replicate (total_width - 2).toNat hlc).flatten ++ ['+']

/-- The cell separator `f" {partition_char} "` used by the joins. -/
def sepOf (partition_char : Str) : Str :=
  ' ' :: (partition_char ++ [' '])

/-- The header row cells (source line 93):
`header.center(self.channel_widths[i])`.  A `None` width raises
`TypeError` and a missing width raises `IndexError`, both modelled as
`none`. -/
def headerCells : List Str → List (Option Int) → Option (List Str)
  | [], _ => some []
  | _ :: _, [] => none
  | h :: hs, w :: ws =>
    match w with
    | some wi => (headerCells hs ws).map (fun cs => pyCenter h wi :: cs)
    | none => none

/-- One data cell before truncation (source lines 101–105): the
channel's fragment left-justified to its width, or `column_width`
spaces when the channel has no fragment at this row index. -/
def dataCell (rows : List Str) (w : Int) (i : Nat) : Str :=
  match rows.get? i with
  | some r => pyLjust r w
  | none => List.replicate w.toNat ' '

/-- The per-cell safety truncation (source lines 108–112): a cell
longer than its channel width is cut to `channel[:width]`; the flag
records that the branch fired (the verbose `CellTruncation`
diagnostic). -/
def truncCell (c : Str) (w : Int) : Str × Bool :=
  if (c.length : Int) > w then (pySliceTo c w, true) else (c, false)

/-- One printed data row (source lines 99–114) together with whether
any of its cells was truncated: build the cells, apply the truncation
pass, join with `f" {partition_char} "` and center in `total_width`. -/
def dataRow (wrapped : List (List Str)) (ws : List Int) (partition : Str)
    (total_width : Int) (i : Nat) : Str × Bool :=
  let cells := (wrapped.zip ws).map (fun p => dataCell p.1 p.2 i)
  let tr := (cells.zip ws).map (fun p => truncCell p.1 p.2)
  (pyCenter (List.intercalate (sepOf partition) (tr.map Prod.fst)) total_width,
    (tr.map Prod.snd).any id)

/-- `Output.print_all_data` (source lines 57–118), returning the
ordered list of printed lines paired with whether the truncation branch
fired anywhere.  `none` models a run that raises (`TypeError` on an
unresolved width that is consulted, `IndexError` on a short width list,
`ValueError` of `max` on zero channels) or that never terminates (the
wrap loop out of fuel). -/
def Output.print_all_data (o : Output) (smart_wrap : Bool) :
    Option (List Str × Bool) :=
  match wrapAllW smart_wrap o.channel_data o.channel_widths with
  | none => none
  | some wrapped =>
    if o.channel_data.length = 0 then none
    else
      let max_rows := (wrapped.map List.length).foldl Nat.max 0
      let top := if o.border then [borderLine o.total_width o.horizontal_line_char] else []
      let headerPart : Option (List Str) :=
        match o.headers with
        | none => some []
        | some hs =>
          match headerCells hs o.channel_widths with
          | none => none
          | some cells =>
            some ([pyCenter (List.intercalate (sepOf o.partition_char) cells) o.total_width] ++
              (if o.border then [borderLine o.total_width o.horizontal_line_char] else []))
      match headerPart with
      | none => none
      | some hlines =>
        if max_rows = 0 then
          some (top ++ hlines ++ top, false)
        else
          match (o.channel_widths.take wrapped.length).mapM id with
          | none => none
          | some wsI =>
            let rows := (List.range max_rows).map
              (dataRow wrapped wsI o.partition_char o.total_width)
            some (top ++ hlines ++ rows.map Prod.fst ++ top, (rows.map Prod.snd).any id)

/-- Modelled from the spec's wording for claim C1 ("the last
whitespace character at or before offset `columnWidth`"): the largest
index `i ≤ columnWidth` holding a whitespace character. -/
def lastWsAtOrBefore (s : Str) (cw : Nat) : Option Nat :=
  ((List.range (cw + 1)).filter (fun i => (s.get? i).any pyIsSpace)).getLast?

/-- The amended cut rule: the last space character (U+0020 only)
strictly before offset `columnWidth`, i.e. within the first
`columnWidth` characters of the remaining text. -/
def lastSpaceBefore (s : Str) (cw : Nat) : Option Nat :=
  ((List.range cw).filter (fun i => s.get? i == some ' ')).getLast?

/-- Split index as the amended claim states it, built on
`lastSpaceBefore` (computed as a maximum over candidate offsets, in
contrast to the downward `rfind` scan of the implementation). -/
def specSplitIdx (smart : Bool) (cw : Nat) (part : Str) : Nat :=
  if smart then (lastSpaceBefore part cw).getD cw else cw

/-- The wrap loop as the amended claim describes it: carve at
`specSplitIdx`, trim the carved segment and the remainder, append the
final leftover untrimmed. -/
def wrapSpecGo (smart : Bool) (cw : Nat) : Nat → Str → Option (List Str)
  | 0, _ => none
  | fuel + 1, part =>
    if part.length > cw then
      (wrapSpecGo smart cw fuel (pyStrip (part.drop (specSplitIdx smart cw part)))).map
        (fun rest => pyStrip (part.take (specSplitIdx smart cw part)) :: rest)
    else
      some [part]

/-- `wrapSpecGo` with the canonical fuel. -/
def wrapSpec (smart : Bool) (cw : Nat) (part : Str) : Option (List Str) :=
  wrapSpecGo smart cw (part.length + 1) part

/-- Channel wrapping under the amended rule. -/
def wrapChannelSpec (smart : Bool) (cw : Nat) (channel : List Str) : Option (List Str) :=
  ((channel.flatMap splitLines).mapM (wrapSpec smart cw)).map List.flatten

/-- A wrap-loop state from which the loop never finishes, whatever
fuel it is given: the model of non-termination of the source's
`while` loop. -/
def wrapDiverges (smart : Bool) (cw : Nat) (part : Str) : Prop :=
  ∀ fuel, wrapGo smart cw fuel part = none

/-- The framing lines (borders and header section) of a render whose
data-row section is empty — what `print_all_data` emits on an
all-empty layout. -/
def frameLines (o : Output) : Option (List Str) :=
  let top := if o.border then [borderLine o.total_width o.horizontal_line_char] else []
  match o.headers with
  | none => some (top ++ [] ++ top)
  | some hs =>
    (headerCells hs o.channel_widths).map (fun cells =>
      top ++ ([pyCenter (List.intercalate (sepOf o.partition_char) cells) o.total_width] ++
        (if o.border then [borderLine o.total_width o.horizontal_line_char] else [])) ++ top)

/-! ### Basic lemmas about the string primitives -/

theorem stripRight_length_le (s : Str) : (stripRight s).length ≤ s.length := by
  unfold stripRight
  calc (s.reverse.dropWhile pyIsSpace).reverse.length
      = (s.reverse.dropWhile pyIsSpace).length := List.length_reverse _
    _ ≤ s.reverse.length := (List.dropWhile_sublist pyIsSpace).length_le
    _ = s.length := List.length_reverse _

theorem pyStrip_length_le (s : Str) : (pyStrip s).length ≤ s.length := by
  unfold pyStrip
  calc (stripRight (s.dropWhile pyIsSpace)).length
      ≤ (s.dropWhile pyIsSpace).length := stripRight_length_le _
    _ ≤ s.length := (List.dropWhile_sublist pyIsSpace).length_le

theorem pyStrip_cons_of_space (c : Char) (s : Str) (h : pyIsSpace c = true) :
    pyStrip (c :: s) = pyStrip s := by
  unfold pyStrip
  rw [List.dropWhile_cons, if_pos h]

theorem pyStrip_length_lt_of_head_space (c : Char) (s : Str) (h : pyIsSpace c = true) :
    (pyStrip (c :: s)).length < (c :: s).length := by
  rw [pyStrip_cons_of_space c s h]
  exact Nat.lt_succ_of_le (pyStrip_length_le s)

theorem rfindSpaceAux_spec (s : Str) :
    ∀ k i, rfindSpaceAux s k = some i → i < k ∧ s.get? i = some ' ' := by
  intro k
  induction k with
  | zero => intro i h; simp [rfindSpaceAux] at h
  | succ k ih =>
    intro i h
    unfold rfindSpaceAux at h
    by_cases hc : (s.get? k == some ' ') = true
    · rw [if_pos hc] at h
      cases h
      exact ⟨Nat.lt_succ_self _, eq_of_beq hc⟩
    · rw [if_neg hc] at h
      obtain ⟨h1, h2⟩ := ih i h
      exact ⟨Nat.lt_succ_of_lt h1, h2⟩

theorem pyRfindSpace_spec (s : Str) (e i : Nat) (h : pyRfindSpace s e = some i) :
    i < e ∧ i < s.length ∧ s.get? i = some ' ' := by
  obtain ⟨h1, h2⟩ := rfindSpaceAux_spec s _ i h
  exact ⟨lt_of_lt_of_le h1 (min_le_left _ _), lt_of_lt_of_le h1 (min_le_right _ _), h2⟩

theorem splitIdx_le (smart : Bool) (cw : Nat) (part : Str) :
    splitIdx smart cw part ≤ cw := by
  unfold splitIdx
  cases smart with
  | false => simp
  | true =>
    simp only [if_pos]
    cases hr : pyRfindSpace part cw with
    | none => simp
    | some i =>
      simp only [Option.getD_some]
      exact Nat.le_of_lt (pyRfindSpace_spec part cw i hr).1

/-! ### Termination and bounds of the wrap loop -/

theorem wrapGo_succ_of_gt (smart : Bool) (cw fuel : Nat) (part : Str)
    (h : part.length > cw) :
    wrapGo smart cw (fuel + 1) part =
      (wrapGo smart cw fuel (pyStrip (part.drop (splitIdx smart cw part)))).map
        (fun rest => pyStrip (part.take (splitIdx smart cw part)) :: rest) := by
  conv_lhs => rw [wrapGo]
  rw [if_pos h]

theorem wrapGo_succ_of_le (smart : Bool) (cw fuel : Nat) (part : Str)
    (h : ¬ part.length > cw) :
    wrapGo smart cw (fuel + 1) part = some [part] := by
  unfold wrapGo
  rw [if_neg h]

/-- The loop makes progress whenever the column width is at least 1:
the stripped remainder is strictly shorter than the current text.
(Split index 0 can only come from a space found at index 0, which
`strip` then removes.) -/
theorem wrap_rest_length_lt (smart : Bool) (cw : Nat) (part : Str)
    (hcw : 1 ≤ cw) (hlen : cw < part.length) :
    (pyStrip (part.drop (splitIdx smart cw part))).length < part.length := by
  rcases Nat.eq_zero_or_pos (splitIdx smart cw part) with h0 | hpos
  · rw [h0, List.drop_zero]
    have hsp : part.get? 0 = some ' ' := by
      cases smart with
      | false =>
        exfalso
        unfold splitIdx at h0
        simp at h0
        omega
      | true =>
        unfold splitIdx at h0
        simp only [if_pos] at h0
        cases hr : pyRfindSpace part cw with
        | none =>
          exfalso
          rw [hr] at h0
          simp at h0
          omega
        | some i =>
          rw [hr] at h0
          simp at h0
          subst h0
          exact (pyRfindSpace_spec part cw _ hr).2.2
    cases part with
    | nil => simp at hsp
    | cons c t =>
      simp at hsp
      subst hsp
      exact pyStrip_length_lt_of_head_space ' ' t (by decide)
  · have hd : (part.drop (splitIdx smart cw part)).length < part.length := by
      rw [List.length_drop]
      omega
    exact lt_of_le_of_lt (pyStrip_length_le _) hd

/-- Fuel adequacy: with a positive column width, any fuel strictly
greater than the text length runs the loop to completion, and all such
runs agree with `wrap` (which uses fuel `length + 1`). -/
theorem wrapGo_eq_wrap (smart : Bool) (cw : Nat) (hcw : 1 ≤ cw) :
    ∀ (n : Nat) (part : Str), part.length ≤ n →
      (wrap smart cw part).isSome = true ∧
      ∀ fuel, part.length < fuel → wrapGo smart cw fuel part = wrap smart cw part := by
  intro n
  induction n with
  | zero =>
    intro part hn
    have hle : ¬ part.length > cw := by omega
    constructor
    · rw [wrap, wrapGo_succ_of_le smart cw _ part hle]
      rfl
    · intro fuel hf
      obtain ⟨f, rfl⟩ : ∃ f, fuel = f + 1 := ⟨fuel - 1, by omega⟩
      rw [wrapGo_succ_of_le smart cw f part hle, wrap,
        wrapGo_succ_of_le smart cw _ part hle]
  | succ n ih =>
    intro part hn
    by_cases hge : part.length > cw
    · have hlt := wrap_rest_length_lt smart cw part hcw hge
      set rest := pyStrip (part.drop (splitIdx smart cw part)) with hrestdef
      have hrn : rest.length ≤ n := by omega
      obtain ⟨hSome, hAgree⟩ := ih rest hrn
      have hwrapunf : wrap smart cw part =
          (wrap smart cw rest).map
            (fun r => pyStrip (part.take (splitIdx smart cw part)) :: r) := by
        rw [wrap, wrapGo_succ_of_gt smart cw part.length part hge,
          hAgree part.length hlt]
      constructor
      · rw [hwrapunf]
        obtain ⟨r, hr⟩ := Option.isSome_iff_exists.mp hSome
        rw [hr]
        rfl
      · intro fuel hf
        obtain ⟨f, rfl⟩ : ∃ f, fuel = f + 1 := ⟨fuel - 1, by omega⟩
        rw [wrapGo_succ_of_gt smart cw f part hge, hAgree f (by omega), hwrapunf]
    · constructor
      · rw [wrap, wrapGo_succ_of_le smart cw _ part hge]
        rfl
      · intro fuel hf
        obtain ⟨f, rfl⟩ : ∃ f, fuel = f + 1 := ⟨fuel - 1, by omega⟩
        rw [wrapGo_succ_of_le smart cw f part hge, wrap,
          wrapGo_succ_of_le smart cw _ part hge]

/-- With a positive column width, `wrap` always terminates. -/
theorem wrap_isSome (smart : Bool) (cw : Nat) (part : Str) (hcw : 1 ≤ cw) :
    (wrap smart cw part).isSome = true :=
  (wrapGo_eq_wrap smart cw hcw part.length part le_rfl).1

/-- Every fragment the loop produces has length at most the column
width: carved prefixes have length `≤ split_index ≤ column_width`, and
the final remainder satisfies the loop exit condition. -/
theorem wrapGo_frag_le (smart : Bool) (cw : Nat) :
    ∀ (fuel : Nat) (part : Str) (l : List Str),
      wrapGo smart cw fuel part = some l → ∀ x ∈ l, x.length ≤ cw := by
  intro fuel
  induction fuel with
  | zero =>
    intro part l h
    simp [wrapGo] at h
  | succ f ih =>
    intro part l h
    by_cases hge : part.length > cw
    · rw [wrapGo_succ_of_gt smart cw f part hge] at h
      cases hrec : wrapGo smart cw f (pyStrip (part.drop (splitIdx smart cw part))) with
      | none =>
        rw [hrec] at h
        simp at h
      | some r =>
        rw [hrec] at h
        simp only [Option.map_some'] at h
        cases h
        intro x hx
        rcases List.mem_cons.mp hx with rfl | hmem
        · calc (pyStrip (part.take (splitIdx smart cw part))).length
              ≤ (part.take (splitIdx smart cw part)).length := pyStrip_length_le _
            _ ≤ splitIdx smart cw part := by
                rw [List.length_take]
                exact min_le_left _ _
            _ ≤ cw := splitIdx_le smart cw part
        · exact ih _ r hrec x hmem
    · rw [wrapGo_succ_of_le smart cw f part hge] at h
      cases h
      intro x hx
      rcases List.mem_cons.mp hx with rfl | hmem
      · omega
      · cases hmem

theorem wrap_frag_le (smart : Bool) (cw : Nat) (part : Str) (l : List Str)
    (h : wrap smart cw part = some l) : ∀ x ∈ l, x.length ≤ cw :=
  wrapGo_frag_le smart cw _ part l h

theorem mapM_wrap_some (smart : Bool) (cw : Nat) (hcw : 1 ≤ cw) :
    ∀ parts : List Str, ∃ ls, parts.mapM (wrap smart cw) = some ls ∧
      ∀ l ∈ ls, ∀ x ∈ l, x.length ≤ cw := by
  intro parts
  induction parts with
  | nil => exact ⟨[], by rw [List.mapM_nil]; rfl, by simp⟩
  | cons p ps ih =>
    obtain ⟨ls, h1, h2⟩ := ih
    obtain ⟨l, hl⟩ := Option.isSome_iff_exists.mp (wrap_isSome smart cw p hcw)
    refine ⟨l :: ls, ?_, ?_⟩
    · rw [List.mapM_cons, hl, h1]
      rfl
    · intro l' hl' x hx
      rcases List.mem_cons.mp hl' with rfl | hmem
      · exact wrap_frag_le smart cw p l' hl x hx
      · exact h2 l' hmem x hx

/-- With a positive column width, wrapping a whole channel terminates
and every produced fragment fits in the column. -/
theorem wrapChannel_total (smart : Bool) (cw : Nat) (ch : List Str) (hcw : 1 ≤ cw) :
    ∃ rows, wrapChannel smart cw ch = some rows ∧ ∀ f ∈ rows, f.length ≤ cw := by
  obtain ⟨ls, h1, h2⟩ := mapM_wrap_some smart cw hcw (ch.flatMap splitLines)
  refine ⟨ls.flatten, ?_, ?_⟩
  · rw [wrapChannel, h1]
    rfl
  · intro f hf
    obtain ⟨l, hl, hfl⟩ := List.mem_flatten.mp hf
    exact h2 l hl f hfl

/-! ### The implementation's `rfind` computes the last space before the
column width -/

theorem rfindSpaceAux_min (s : Str) :
    ∀ k, rfindSpaceAux s k = rfindSpaceAux s (min k s.length) := by
  intro k
  induction k with
  | zero => simp [Nat.zero_min]
  | succ k ih =>
    by_cases h : k + 1 ≤ s.length
    · rw [min_eq_left h]
    · have hk : s.length ≤ k := by omega
      have hget : s.get? k = none := List.get?_eq_none.mpr hk
      have hstep : rfindSpaceAux s (k + 1) = rfindSpaceAux s k := by
        conv_lhs => rw [rfindSpaceAux]
        rw [hget]
        rfl
      rw [hstep, ih, min_eq_right hk, min_eq_right (by omega)]

theorem rfindSpaceAux_eq_getLast (s : Str) :
    ∀ k, rfindSpaceAux s k =
      ((List.range k).filter (fun i => s.get? i == some ' ')).getLast? := by
  intro k
  induction k with
  | zero => rfl
  | succ k ih =>
    rw [List.range_succ, List.filter_append]
    unfold rfindSpaceAux
    by_cases h : (s.get? k == some ' ') = true
    · rw [if_pos h]
      have hf : List.filter (fun i => s.get? i == some ' ') [k] = [k] := by
        simp only [List.filter_cons, List.filter_nil, if_pos h]
      rw [hf, List.getLast?_concat]
    · rw [if_neg h]
      have hf : List.filter (fun i => s.get? i == some ' ') [k] = [] := by
        simp only [List.filter_cons, List.filter_nil, if_neg h]
      rw [hf, List.append_nil, ih]

theorem pyRfindSpace_eq_lastSpaceBefore (s : Str) (cw : Nat) :
    pyRfindSpace s cw = lastSpaceBefore s cw := by
  unfold pyRfindSpace lastSpaceBefore
  rw [← rfindSpaceAux_min s cw, rfindSpaceAux_eq_getLast s cw]

theorem specSplitIdx_eq (smart : Bool) (cw : Nat) (part : Str) :
    specSplitIdx smart cw part = splitIdx smart cw part := by
  unfold specSplitIdx splitIdx
  rw [pyRfindSpace_eq_lastSpaceBefore]

theorem wrapSpecGo_succ_of_gt (smart : Bool) (cw fuel : Nat) (part : Str)
    (h : part.length > cw) :
    wrapSpecGo smart cw (fuel + 1) part =
      (wrapSpecGo smart cw fuel (pyStrip (part.drop (specSplitIdx smart cw part)))).map
        (fun rest => pyStrip (part.take (specSplitIdx smart cw part)) :: rest) := by
  conv_lhs => rw [wrapSpecGo]
  rw [if_pos h]

theorem wrapSpecGo_succ_of_le (smart : Bool) (cw fuel : Nat) (part : Str)
    (h : ¬ part.length > cw) :
    wrapSpecGo smart cw (fuel + 1) part = some [part] := by
  unfold wrapSpecGo
  rw [if_neg h]

theorem wrapSpecGo_eq (smart : Bool) (cw : Nat) :
    ∀ fuel part, wrapSpecGo smart cw fuel part = wrapGo smart cw fuel part := by
  intro fuel
  induction fuel with
  | zero => intro part; rfl
  | succ f ih =>
    intro part
    by_cases h : part.length > cw
    · rw [wrapSpecGo_succ_of_gt smart cw f part h, wrapGo_succ_of_gt smart cw f part h,
        specSplitIdx_eq, ih]
    · rw [wrapSpecGo_succ_of_le smart cw f part h, wrapGo_succ_of_le smart cw f part h]

/-- **C1** (amended).  The wrapping of every channel entry follows this
rule: with `smartWrap = true` the cut is made at the last *space
character* (U+0020 only, not arbitrary whitespace) *strictly before*
offset `columnWidth` — i.e. within the first `columnWidth` characters
of the remaining text — the carved segment and the remainder being
trimmed (which discards that space); if no space occurs there, a hard
cut is made at exactly `columnWidth`.  With `smartWrap = false` every
cut is made at exactly `columnWidth` characters. -/
theorem C1_wrap_rule_amended (smart : Bool) (cw : Nat) (channel : List Str) :
    wrapChannel smart cw channel = wrapChannelSpec smart cw channel := by
  unfold wrapChannel wrapChannelSpec
  have hw : wrap smart cw = wrapSpec smart cw := by
    funext part
    unfold wrap wrapSpec
    rw [wrapSpecGo_eq]
  rw [hw]

/-- **C1** (counterexample).  Two refutations of the stated rule.
(i) For `"a bcde fgh"` at width 6 the last whitespace at or before
offset 6 is the space at offset 6, so the rule would carve the trimmed
segment `"a bcde"`; the code carves `"a"` — its `rfind` searches only
offsets `0..5`.  (ii) For `"ab\tcdefgh"` at width 4 a whitespace (the
tab, offset 2) lies within the column width, yet the code hard-cuts at
offset 4, inside the word `"cdefgh"`, carving `"ab\tc"` instead of the
rule's `"ab"` — `rfind` looks for the space character only, not for
whitespace. -/
theorem C1_wrap_rule_counterexample :
    lastWsAtOrBefore ("a bcde fgh").data 6 = some 6 ∧
    pyStrip (("a bcde fgh").data.take 6) = ("a bcde").data ∧
    wrap true 6 ("a bcde fgh").data =
      some [("a").data, ("bcde").data, ("fgh").data] ∧
    ("a").data ≠ ("a bcde").data ∧
    lastWsAtOrBefore ("ab\tcdefgh").data 4 = some 2 ∧
    pyStrip (("ab\tcdefgh").data.take 2) = ("ab").data ∧
    wrap true 4 ("ab\tcdefgh").data =
      some [("ab\tc").data, ("defg").data, ("h").data] ∧
    ("ab\tc").data ≠ ("ab").data := by decide

/-! ### Width resolution (C2, C3) -/

theorem filterMap_id_replicate_none (k : Nat) :
    (List.replicate k (none : Option Int)).filterMap id = [] := by
  induction k with
  | zero => rfl
  | succ k ih => simp [List.replicate_succ, List.filterMap_cons, ih]

theorem filterMap_id_replicate_some (k : Nat) (q : Int) :
    (List.replicate k (some q)).filterMap id = List.replicate k q := by
  induction k with
  | zero => rfl
  | succ k ih => simp [List.replicate_succ, List.filterMap_cons, ih]

theorem resolveWidths_all_none (n W : Int) (hn : 0 < n) (hr : 0 < W - (n - 1)) :
    resolveWidths n W (List.replicate n.toNat none) =
      List.replicate n.toNat (some ((W - (n - 1)).fdiv n)) := by
  unfold resolveWidths
  rw [filterMap_id_replicate_none, List.sum_nil, sub_zero]
  rw [if_neg (by omega), if_pos hr, List.count_replicate_self,
    if_pos (by omega : 0 < n.toNat), List.map_replicate]
  have hcast : ((n.toNat : Nat) : Int) = n := Int.toNat_of_nonneg hn.le
  rw [hcast]

/-- **C2**: with all widths unspecified and
`0 < totalWidth - (channelCount - 1)`, every resolved width is
`(totalWidth - (channelCount - 1)) // channelCount` (Python floor
division), and the widths sum plus `channelCount - 1` equals
`totalWidth` minus the dropped division remainder. -/
theorem C2_width_distribution (n W : Int) (p hl : Str) (b v : Bool)
    (hn : 0 < n) (hW : 0 < W) (hr : 0 < W - (n - 1)) :
    ∃ o, Output.init n none W p b none none hl v = .ok o ∧
      o.channel_widths = List.replicate n.toNat (some ((W - (n - 1)).fdiv n)) ∧
      (o.channel_widths.filterMap id).sum + (n - 1) = W - (W - (n - 1)).fmod n := by
  have hres := resolveWidths_all_none n W hn hr
  refine ⟨_, rfl, ?_, ?_⟩
  · show resolveWidths n W (List.replicate n.toNat none) = _
    exact hres
  · show ((resolveWidths n W (List.replicate n.toNat none)).filterMap id).sum + (n - 1) =
      W - (W - (n - 1)).fmod n
    rw [hres, filterMap_id_replicate_some, List.sum_replicate, nsmul_eq_mul,
      Int.toNat_of_nonneg hn.le]
    have hid := Int.fdiv_add_fmod (W - (n - 1)) n
    linarith

/-- Witness for C2 at `channelCount = 2`, `totalWidth = 20`. -/
theorem C2_width_distribution_witness :
    (0 : Int) < 2 ∧ (0 : Int) < 20 ∧ (0 : Int) < 20 - (2 - 1) ∧
    (∃ o, Output.init 2 none 20 ['|'] false none none ['-'] false = .ok o ∧
      o.channel_widths = List.replicate (2 : Int).toNat (some (((20 : Int) - (2 - 1)).fdiv 2)) ∧
      (o.channel_widths.filterMap id).sum + (2 - 1) = 20 - ((20 : Int) - (2 - 1)).fmod 2) :=
  ⟨by decide, by decide, by decide,
    C2_width_distribution 2 20 ['|'] ['-'] false false (by decide) (by decide) (by decide)⟩

/-- **C3** (counterexample).  With `channelCount = 2`,
`totalWidth = 1` and both widths unspecified, the remaining width is
`1 - 0 - 1 = 0`, and the widths stay `None` — they are *not* resolved
to the integer 0 as the claim states. -/
theorem C3_zero_remaining_counterexample :
    (Output.init 2 none 1 ['|'] false none none ['-'] false).map Output.channel_widths =
      .ok [none, none] ∧
    ([none, none] : List (Option Int)) ≠ [some 0, some 0] :=
  ⟨rfl, by decide⟩

/-- **C3** (amended).  When the remaining width is exactly 0, or there
is no unspecified width, width resolution leaves the width list
entirely unchanged: unspecified entries remain `None` (unresolved),
not 0, and are later usable by `render` only as long as the channel
stays empty (a consulted `None` width raises). -/
theorem C3_unresolved_amended (n W : Int) (ws : List (Option Int))
    (h : W - (ws.filterMap id).sum - (n - 1) = 0 ∨ ws.count none = 0) :
    resolveWidths n W ws = ws := by
  unfold resolveWidths
  rcases h with h | h
  · rw [h]
    norm_num
  · by_cases h1 : W - (ws.filterMap id).sum - (n - 1) < 0
    · rw [if_pos h1]
    · rw [if_neg h1]
      by_cases h2 : W - (ws.filterMap id).sum - (n - 1) > 0
      · rw [if_pos h2, h]
        norm_num
      · rw [if_neg h2]

/-- Witness for C3 (amended) at the counterexample's configuration. -/
theorem C3_unresolved_amended_witness :
    ((1 : Int) - (([none, none] : List (Option Int)).filterMap id).sum - ((2 : Int) - 1) = 0 ∨
      ([none, none] : List (Option Int)).count none = 0) ∧
    resolveWidths 2 1 [none, none] = [none, none] :=
  ⟨Or.inl (by decide), C3_unresolved_amended 2 1 [none, none] (Or.inl (by decide))⟩

/-! ### Non-termination on a zero-width column (C4) -/

/-- **C4** (code bug).  With a resolved column width of 0 and the
single entry `"a"`, the wrap `while` loop of `print_all_data` never
terminates in either wrap mode: the split index is 0 and
`part[0:].strip()` leaves `part` unchanged, so the loop state is a
fixpoint.  Consequently the full render of such a layout cannot
complete (modelled as `none` for every fuel). -/
theorem C4_zero_width_divergence :
    wrapDiverges true 0 ("a").data ∧ wrapDiverges false 0 ("a").data ∧
    ({ no_channels := 1, total_width := 80, partition_char := ['|'],
       horizontal_line_char := ['-'], border := false, verbose := false,
       headers := none, channel_data := [[("a").data]],
       channel_widths := [some 0] } : Output).print_all_data true = none := by
  refine ⟨?_, ?_, rfl⟩
  · intro fuel
    induction fuel with
    | zero => rfl
    | succ f ih =>
      rw [wrapGo_succ_of_gt true 0 f ("a").data (by decide)]
      have h1 : pyStrip (("a").data.drop (splitIdx true 0 ("a").data)) = ("a").data := by
        decide
      rw [h1, ih]
      rfl
  · intro fuel
    induction fuel with
    | zero => rfl
    | succ f ih =>
      rw [wrapGo_succ_of_gt false 0 f ("a").data (by decide)]
      have h1 : pyStrip (("a").data.drop (splitIdx false 0 ("a").data)) = ("a").data := by
        decide
      rw [h1, ih]
      rfl

/-! ### Construction never raises (C5) -/

theorem seed_isOk (l : List (Nat × Str)) : ∀ o : Output, ∃ o', Output.seed o l = .ok o' := by
  induction l with
  | nil => intro o; exact ⟨o, rfl⟩
  | cons p rest ih =>
    intro o
    obtain ⟨i, d⟩ := p
    by_cases h : (i : Int) < o.no_channels
    · obtain ⟨o2, ho2⟩ : ∃ o2, o.add_data (i : Int) d = .ok o2 := by
        unfold Output.add_data
        rw [if_pos ⟨Int.natCast_nonneg i, h⟩]
        exact ⟨_, rfl⟩
      obtain ⟨o', ho'⟩ := ih o2
      refine ⟨o', ?_⟩
      unfold Output.seed
      rw [if_pos h, ho2]
      exact ho' 
    · obtain ⟨o', ho'⟩ := ih o
      refine ⟨o', ?_⟩
      unfold Output.seed
      rw [if_neg h, ho']

/-- **C5** (counterexample).  Construction with `channelCount = 0`
succeeds and returns a fully-formed (degenerate) instance — it does
not fail with any error. -/
theorem C5_no_configuration_error_counterexample :
    Output.init 0 none 80 ['|'] false none none ['-'] false =
      .ok { no_channels := 0, total_width := 80, partition_char := ['|'],
            horizontal_line_char := ['-'], border := false, verbose := false,
            headers := none, channel_data := [], channel_widths := [] } := rfl

/-- **C5** (amended).  The constructor performs no validation of
`channelCount` and never raises: for every combination of arguments,
including `channelCount ≤ 0`, construction returns an instance
(`channelCount ≤ 0` yields one with no channels). -/
theorem C5_no_configuration_error_amended (n : Int) (cd : Option (List Str))
    (W : Int) (p : Str) (b : Bool) (hs : Option (List Str))
    (cw : Option (List (Option Int))) (hl : Str) (v : Bool) :
    ∃ o, Output.init n cd W p b hs cw hl v = .ok o := by
  unfold Output.init
  cases cd with
  | none => exact ⟨_, rfl⟩
  | some ds => exact seed_isOk ds.enum _

/-! ### Wrapping a short string (C7) -/

theorem splitLines_of_no_newline (e : Str) (h : '\n' ∉ e) : splitLines e = [e] := by
  induction e with
  | nil => rfl
  | cons c t ih =>
    have hc : ¬ c = '\n' := fun hh => h (by rw [hh]; exact List.mem_cons_self _ _)
    have ht : '\n' ∉ t := fun hh => h (List.mem_cons_of_mem c hh)
    unfold splitLines
    rw [if_neg hc, ih ht]

/-- **C7** (amended).  A single entry with no embedded line break and
length at most the (arbitrary) column width wraps, in either mode, to
exactly one fragment equal to the *original* string — the final
leftover is appended untrimmed, so leading/trailing whitespace is
preserved (the fragment equals the trimmed original only when the
entry has no surrounding whitespace). -/
theorem C7_short_string_amended (smart : Bool) (cw : Nat) (e : Str)
    (hnl : '\n' ∉ e) (hlen : e.length ≤ cw) :
    wrapChannel smart cw [e] = some [e] := by
  unfold wrapChannel
  have hfm : ([e] : List Str).flatMap splitLines = [e] := by
    rw [List.flatMap_cons, List.flatMap_nil, splitLines_of_no_newline e hnl,
      List.append_nil]
  rw [hfm]
  have hw : wrap smart cw e = some [e] := by
    unfold wrap
    exact wrapGo_succ_of_le smart cw _ e (by omega)
  rw [List.mapM_cons, hw, List.mapM_nil]
  rfl

/-- Witness for C7 (amended) at `"hi"`, width 5. -/
theorem C7_short_string_amended_witness :
    '\n' ∉ ("hi").data ∧ ("hi").data.length ≤ 5 ∧
    wrapChannel true 5 [("hi").data] = some [("hi").data] :=
  ⟨by decide, by decide, C7_short_string_amended true 5 ("hi").data (by decide) (by decide)⟩

/-- **C7** (counterexample).  The whitespace-padded entry `" hi "`
(length 4 ≤ width 8) wraps to the single fragment `" hi "`, which is
*not* the trimmed original `"hi"`: the final leftover is appended
without `strip()`. -/
theorem C7_short_string_counterexample :
    wrapChannel true 8 [(" hi ").data] = some [(" hi ").data] ∧
    (" hi ").data ≠ pyStrip ((" hi ").data) := by decide

/-! ### The spec's worked example (C9) -/

/-- **C9** (counterexample).  For `channelCount = 2`,
`totalWidth = 20` with both widths unspecified the resolved column
width is `(20 - 1) // 2 = 9`, not 8 as the spec's example states; and
at width 8 the entry `"hello world foo"` would wrap to *three*
fragments, not the claimed two. -/
theorem C9_example_counterexample :
    (Output.init 2 none 20 ['|'] false none none ['-'] false).map Output.channel_widths =
      .ok [some 9, some 9] ∧
    (9 : Int) ≠ 8 ∧
    wrapChannel true 8 [("hello world foo").data] =
      some [("hello").data, ("world").data, ("foo").data] :=
  ⟨rfl, by decide, by decide⟩

/-- **C9** (amended).  In that configuration the resolved widths are
`[9, 9]`, and smart-wrapping channel 0's single entry
`"hello world foo"` (channel 1 receiving nothing) produces exactly the
fragments `"hello"` and `"world foo"`, each cut at a space within the
column width. -/
theorem C9_example_amended :
    (Output.init 2 (some [("hello world foo").data]) 20 ['|'] false none none
        ['-'] false).map
      (fun o => (o.channel_widths, wrapAllW true o.channel_data o.channel_widths)) =
    .ok ([some 9, some 9],
      some [[("hello").data, ("world foo").data], []]) := rfl

/-! ### Rendering an empty layout (C6) -/

theorem wrapAllW_all_empty (smart : Bool) :
    ∀ (chans : List (List Str)) (ws : List (Option Int)),
      (∀ ch ∈ chans, ch = []) → chans.length ≤ ws.length →
      wrapAllW smart chans ws = some (chans.map (fun _ => [])) := by
  intro chans
  induction chans with
  | nil => intro ws h hl; rfl
  | cons ch chs ih =>
    intro ws h hl
    cases ws with
    | nil => simp at hl
    | cons w ws' =>
      have hch : ch = [] := h ch (List.mem_cons_self _ _)
      subst hch
      unfold wrapAllW
      rw [ih ws' (fun c hc => h c (List.mem_cons_of_mem _ hc)) (by simpa using hl)]
      rfl

theorem foldl_max_zeros (l : List (List Str)) :
    ((l.map (fun _ => ([] : List Str))).map List.length).foldl Nat.max 0 = 0 := by
  induction l with
  | nil => rfl
  | cons a l ih => simpa using ih

/-- **C6** (amended).  Rendering a layout on which `addItem` was never
called (all channels empty) produces *zero* data rows — `max_rows` is
the maximum of empty fragment lists, which is 0 — so the output is
only the border/header framing lines; the claimed single all-blank row
is not emitted, and the truncation diagnostic never fires. -/
theorem C6_empty_layout_amended (o : Output) (smart : Bool)
    (hne : o.channel_data ≠ [])
    (hev : ∀ ch ∈ o.channel_data, ch = [])
    (hlen : o.channel_data.length ≤ o.channel_widths.length) :
    o.print_all_data smart = (frameLines o).map (fun ls => (ls, false)) := by
  have hwrap := wrapAllW_all_empty smart o.channel_data o.channel_widths hev hlen
  have hguard : ¬ o.channel_data.length = 0 := fun hh => hne (List.length_eq_zero.mp hh)
  have hmax := foldl_max_zeros o.channel_data
  unfold Output.print_all_data frameLines
  rw [hwrap]
  simp only [hguard, ite_false, if_false, hmax, eq_self_iff_true, if_true]
  cases hhead : o.headers with
  | none => rfl
  | some hs =>
    cases hc : headerCells hs o.channel_widths with
    | none => simp [hc]
    | some cells => simp [hc]

/-- Witness for C6 (amended): a bordered, headered 2-channel layout
with no data renders exactly its framing lines and no data row. -/
theorem C6_empty_layout_amended_witness :
    ({ no_channels := 2, total_width := 20, partition_char := ['|'],
       horizontal_line_char := ['-'], border := true, verbose := false,
       headers := some [('A' : Char) :: [], ('B' : Char) :: []],
       channel_data := [[], []], channel_widths := [some 9, some 9] } :
        Output).print_all_data true =
      (frameLines
        { no_channels := 2, total_width := 20, partition_char := ['|'],
          horizontal_line_char := ['-'], border := true, verbose := false,
          headers := some [('A' : Char) :: [], ('B' : Char) :: []],
          channel_data := [[], []], channel_widths := [some 9, some 9] }).map
        (fun ls => (ls, false)) :=
  C6_empty_layout_amended _ true (by decide) (by decide) (by decide)

/-- **C6** (counterexample).  Rendering the empty 2-channel layout of
width 20 emits *no* lines at all (`max_rows = 0`), not the single
all-blank data row the claim requires. -/
theorem C6_empty_layout_counterexample :
    (Output.init 2 none 20 ['|'] false none none ['-'] false).map
      (fun o => o.print_all_data true) = .ok (some ([], false)) ∧
    ([] : List Str).length ≠ 1 :=
  ⟨rfl, by decide⟩

/-! ### No truncation under positive widths (C8) -/

theorem widths_all_some : ∀ (ws : List (Option Int)),
    (∀ w ∈ ws, ∃ k : Int, w = some k ∧ 1 ≤ k) →
    ∃ wsI : List Int, ws = wsI.map some ∧ ∀ k ∈ wsI, 1 ≤ k := by
  intro ws
  induction ws with
  | nil => intro h; exact ⟨[], rfl, by simp⟩
  | cons w ws' ih =>
    intro h
    obtain ⟨k, hk, hk1⟩ := h w (List.mem_cons_self _ _)
    obtain ⟨wsI, hws, hall⟩ := ih (fun x hx => h x (List.mem_cons_of_mem _ hx))
    refine ⟨k :: wsI, ?_, ?_⟩
    · rw [hk, hws]
      rfl
    · intro x hx
      rcases List.mem_cons.mp hx with rfl | h2
      · exact hk1
      · exact hall x h2

theorem mapM_id_map_some : ∀ (l : List Int),
    (l.map some).mapM (id : Option Int → Option Int) = some l := by
  intro l
  induction l with
  | nil => rfl
  | cons k l ih =>
    rw [List.map_cons, List.mapM_cons, ih]
    rfl

theorem wrapAllW_pos (smart : Bool) :
    ∀ (chans : List (List Str)) (wsI : List Int),
      chans.length ≤ wsI.length → (∀ k ∈ wsI, 1 ≤ k) →
      ∃ wrapped, wrapAllW smart chans (wsI.map some) = some wrapped ∧
        wrapped.length = chans.length ∧
        ∀ pr ∈ wrapped.zip wsI, (∀ f ∈ pr.1, (f.length : Int) ≤ pr.2) ∧ 0 ≤ pr.2 := by
  intro chans
  induction chans with
  | nil =>
    intro wsI h1 h2
    exact ⟨[], rfl, rfl, by simp⟩
  | cons ch chs ih =>
    intro wsI h1 h2
    cases wsI with
    | nil => simp at h1
    | cons k ws' =>
      have hk : 1 ≤ k := h2 k (List.mem_cons_self _ _)
      obtain ⟨wr, hwr, hwlen, hbound⟩ :=
        ih ws' (by simpa using h1) (fun x hx => h2 x (List.mem_cons_of_mem _ hx))
      obtain ⟨rows, hrows, hfrag⟩ : ∃ rows,
          wrapAllW smart (ch :: chs) ((k :: ws').map some) = some (rows :: wr) ∧
          ∀ f ∈ rows, (f.length : Int) ≤ k := by
        cases ch with
        | nil =>
          refine ⟨[], ?_, by simp⟩
          simp only [wrapAllW, List.map_cons]
          rw [hwr]
        | cons e ch' =>
          have h0k : (0 : Int) ≤ k := by omega
          obtain ⟨rows, hr, hb⟩ := wrapChannel_total smart k.toNat (e :: ch') (by omega)
          refine ⟨rows, ?_, ?_⟩
          · simp only [wrapAllW, List.map_cons]
            rw [if_pos h0k, hr, hwr]
          · intro f hf
            have := hb f hf
            omega
      refine ⟨rows :: wr, hrows, by simpa using hwlen, ?_⟩
      intro pr hpr
      rw [List.zip_cons_cons] at hpr
      rcases List.mem_cons.mp hpr with rfl | hmem
      · exact ⟨hfrag, by omega⟩
      · exact hbound pr hmem

theorem headerCells_all_some : ∀ (hs : List Str) (wsI : List Int),
    hs.length ≤ wsI.length →
    ∃ cells, headerCells hs (wsI.map some) = some cells := by
  intro hs
  induction hs with
  | nil => intro wsI h; exact ⟨[], rfl⟩
  | cons hd hs' ih =>
    intro wsI h
    cases wsI with
    | nil => simp at h
    | cons k ws' =>
      obtain ⟨cells, hc⟩ := ih ws' (by simpa using h)
      refine ⟨pyCenter hd k :: cells, ?_⟩
      simp only [headerCells, List.map_cons]
      rw [hc]
      rfl

theorem dataCell_length_eq (rows : List Str) (w : Int) (i : Nat)
    (h0 : 0 ≤ w) (hf : ∀ f ∈ rows, (f.length : Int) ≤ w) :
    ((dataCell rows w i).length : Int) = w := by
  unfold dataCell
  cases hg : rows.get? i with
  | none =>
    rw [List.length_replicate]
    omega
  | some r =>
    have hr : (r.length : Int) ≤ w := hf r (List.get?_mem hg)
    unfold pyLjust
    rw [List.length_append, List.length_replicate]
    push_cast
    omega

theorem truncCell_no_trunc (c : Str) (w : Int) (h : ¬ (c.length : Int) > w) :
    truncCell c w = (c, false) := by
  unfold truncCell
  rw [if_neg h]

theorem zip_map_trunc_flags (i : Nat) : ∀ (wrapped : List (List Str)) (ws : List Int),
    (∀ pr ∈ wrapped.zip ws, (∀ f ∈ pr.1, (f.length : Int) ≤ pr.2) ∧ 0 ≤ pr.2) →
    (((((wrapped.zip ws).map (fun p => dataCell p.1 p.2 i)).zip ws).map
        (fun p => truncCell p.1 p.2)).map Prod.snd).any id = false := by
  intro wrapped
  induction wrapped with
  | nil => intro ws h; rfl
  | cons rows wr ih =>
    intro ws h
    cases ws with
    | nil => rfl
    | cons w ws' =>
      have hh := h (rows, w) (by rw [List.zip_cons_cons]; exact List.mem_cons_self _ _)
      have hcell : ((dataCell rows w i).length : Int) = w :=
        dataCell_length_eq rows w i hh.2 hh.1
      have hnt : truncCell (dataCell rows w i) w = (dataCell rows w i, false) :=
        truncCell_no_trunc _ _ (by omega)
      rw [List.zip_cons_cons, List.map_cons, List.zip_cons_cons, List.map_cons, hnt,
        List.map_cons, List.any_cons]
      have hrest := ih ws'
        (fun pr hpr => h pr (by rw [List.zip_cons_cons]; exact List.mem_cons_of_mem _ hpr))
      rw [hrest]
      rfl

/-- **C8**: when every resolved channel width is a positive integer
(and the width list matches the channel list, as construction
guarantees), rendering terminates and the per-cell hard-truncation
branch never fires: every wrapped fragment fits its column, every
left-justified cell has exactly the column width, and no
`CellTruncation` diagnostic is produced (the truncation flag of the
render is `false`). -/
theorem C8_no_truncation (o : Output) (smart : Bool)
    (hw : ∀ w ∈ o.channel_widths, ∃ k : Int, w = some k ∧ 1 ≤ k)
    (hne : o.channel_data ≠ [])
    (hlen : o.channel_widths.length = o.channel_data.length)
    (hh : ∀ hs, o.headers = some hs → hs.length ≤ o.channel_widths.length) :
    ∃ lines, o.print_all_data smart = some (lines, false) := by
  obtain ⟨wsI, hws, hall⟩ := widths_all_some o.channel_widths hw
  have hlenI : wsI.length = o.channel_data.length := by
    rw [hws, List.length_map] at hlen
    exact hlen
  obtain ⟨wrapped, hwrap, hwlen, hbound⟩ :=
    wrapAllW_pos smart o.channel_data wsI (by omega) hall
  have hwrap2 : wrapAllW smart o.channel_data o.channel_widths = some wrapped := by
    rw [hws]
    exact hwrap
  have hguard : ¬ o.channel_data.length = 0 :=
    fun hlen0 => hne (List.length_eq_zero.mp hlen0)
  have htake : o.channel_widths.take wrapped.length = o.channel_widths := by
    apply List.take_of_length_le
    rw [hwlen, hlen]
  have hmapM : (o.channel_widths.take wrapped.length).mapM id = some wsI := by
    rw [htake, hws, mapM_id_map_some]
  have hflag : ∀ i, (dataRow wrapped wsI o.partition_char o.total_width i).2 = false :=
    fun i => zip_map_trunc_flags i wrapped wsI hbound
  have hany : ∀ mr : Nat,
      (((List.range mr).map (dataRow wrapped wsI o.partition_char o.total_width)).map
        Prod.snd).any id = false := by
    intro mr
    rw [List.any_eq_false]
    intro b hb
    rw [List.map_map] at hb
    obtain ⟨i, hi, hbi⟩ := List.mem_map.mp hb
    rw [Function.comp_apply, hflag i] at hbi
    rw [← hbi]
    simp
  cases hhead : o.headers with
  | none =>
    unfold Output.print_all_data
    rw [hwrap2]
    by_cases hmr : (wrapped.map List.length).foldl Nat.max 0 = 0
    · simp only [hguard, ite_false, if_false, hhead, hmr, eq_self_iff_true, if_true]
      exact ⟨_, rfl⟩
    · simp only [hguard, ite_false, if_false, hhead, hmr, hmapM, hany]
      exact ⟨_, rfl⟩
  | some hs =>
    have hhslen : hs.length ≤ wsI.length := by
      have h2 := hh hs hhead
      rw [hws, List.length_map] at h2
      exact h2
    obtain ⟨cells, hcells⟩ := headerCells_all_some hs wsI hhslen
    have hcells2 : headerCells hs o.channel_widths = some cells := by
      rw [hws]
      exact hcells
    unfold Output.print_all_data
    rw [hwrap2]
    by_cases hmr : (wrapped.map List.length).foldl Nat.max 0 = 0
    · simp only [hguard, ite_false, if_false, hhead, hcells2, hmr, eq_self_iff_true, if_true]
      exact ⟨_, rfl⟩
    · simp only [hguard, ite_false, if_false, hhead, hcells2, hmr, hmapM, hany]
      exact ⟨_, rfl⟩

/-- Witness for C8: a concrete 2-channel layout with widths 9 and one
entry renders with no truncation. -/
theorem C8_no_truncation_witness :
    ∃ lines,
      Output.print_all_data
        { no_channels := 2, total_width := 20, partition_char := ['|'],
          horizontal_line_char := ['-'], border := false, verbose := false,
          headers := none, channel_data := [[("hello world foo").data], []],
          channel_widths := [some 9, some 9] } true =
      some (lines, false) :=
  C8_no_truncation _ true (by decide) (by decide) (by decide)
    (fun hs hh => by simp at hh)

/-! ### Constructor seeding (C10) -/

/-- Effect of the seeding loop on the channel lists, for an arbitrary
starting enumeration index: channel `j` receives the entry `ds[j - k]`
exactly when `k ≤ j`, that entry exists, and `j` is a valid channel;
every other channel is untouched, and the loop never errors. -/
theorem seed_enumFrom (nn : Nat) :
    ∀ (ds : List Str) (k : Nat) (o : Output), o.no_channels = (nn : Int) →
      ∃ o', o.seed (List.enumFrom k ds) = .ok o' ∧
        ∀ j : Nat, o'.channel_data[j]? =
          (o.channel_data[j]?).map (fun cur =>
            if k ≤ j ∧ j - k < ds.length ∧ j < nn
            then cur ++ [ds.getD (j - k) []] else cur) := by
  intro ds
  induction ds with
  | nil =>
    intro k o hno
    refine ⟨o, rfl, ?_⟩
    intro j
    cases o.channel_data[j]? with
    | none => rfl
    | some cur => simp
  | cons d ds' ih =>
    intro k o hno
    have henum : List.enumFrom k (d :: ds') = (k, d) :: List.enumFrom (k + 1) ds' := rfl
    rw [henum]
    by_cases hk : k < nn
    · have hklt : ((k : Nat) : Int) < o.no_channels := by
        rw [hno]
        exact_mod_cast hk
      have hadd : o.add_data (k : Int) d =
          .ok { o with channel_data :=
            o.channel_data.set k ((o.channel_data.getD k []) ++ [d]) } := by
        unfold Output.add_data
        rw [if_pos ⟨Int.natCast_nonneg k, hklt⟩]
        rfl
      obtain ⟨o', ho', hchar⟩ := ih (k + 1)
        { o with channel_data := o.channel_data.set k ((o.channel_data.getD k []) ++ [d]) }
        hno
      refine ⟨o', ?_, ?_⟩
      · unfold Output.seed
        rw [if_pos hklt, hadd]
        exact ho'
      · intro j
        rw [hchar j]
        simp only [List.getElem?_set]
        by_cases hjk : k = j
        · subst hjk
          cases hgk : o.channel_data[k]? with
          | none =>
            have hklen : ¬ k < o.channel_data.length := by
              have hle := List.getElem?_eq_none_iff.mp hgk
              omega
            rw [if_pos rfl, if_neg hklen]
            rfl
          | some cur =>
            have hklen : k < o.channel_data.length :=
              (List.getElem?_eq_some.mp hgk).1
            rw [if_pos rfl, if_pos hklen]
            have hgetD : o.channel_data.getD k [] = cur := by
              rw [List.getD_eq_getElem?_getD, hgk]
              rfl
            rw [hgetD]
            simp only [Option.map_some']
            have hc1 : ¬ (k + 1 ≤ k ∧ k - (k + 1) < ds'.length ∧ k < nn) := by omega
            have hc2 : k ≤ k ∧ k - k < (d :: ds').length ∧ k < nn := by
              refine ⟨le_rfl, ?_, hk⟩
              simp
            rw [if_neg hc1, if_pos hc2]
            have hz : k - k = 0 := by omega
            rw [hz]
            rfl
        · rw [if_neg hjk]
          cases o.channel_data[j]? with
          | none => rfl
          | some cur =>
            simp only [Option.map_some']
            by_cases hcond : k + 1 ≤ j ∧ j - (k + 1) < ds'.length ∧ j < nn
            · rw [if_pos hcond, if_pos (by
                refine ⟨by omega, ?_, hcond.2.2⟩
                simp only [List.length_cons]
                omega)]
              have hjk2 : j - k = (j - (k + 1)) + 1 := by omega
              rw [hjk2, List.getD_cons_succ]
            · rw [if_neg hcond, if_neg (by
                intro hc
                apply hcond
                have hne : k ≠ j := hjk
                simp only [List.length_cons] at hc
                exact ⟨by omega, by omega, hc.2.2⟩)]
    · have hklt : ¬ ((k : Nat) : Int) < o.no_channels := by
        rw [hno]
        intro hc
        exact hk (by exact_mod_cast hc)
      obtain ⟨o', ho', hchar⟩ := ih (k + 1) o hno
      refine ⟨o', ?_, ?_⟩
      · unfold Output.seed
        rw [if_neg hklt]
        exact ho'
      · intro j
        rw [hchar j]
        cases o.channel_data[j]? with
        | none => rfl
        | some cur =>
          simp only [Option.map_some']
          have hc1 : ¬ (k + 1 ≤ j ∧ j - (k + 1) < ds'.length ∧ j < nn) ∨ True := Or.inr trivial
          by_cases hcond : k + 1 ≤ j ∧ j - (k + 1) < ds'.length ∧ j < nn
          · exact absurd hcond (by omega)
          · rw [if_neg hcond, if_neg (by
              intro hc
              have : j < nn := hc.2.2
              omega)]

/-- **C10**: the constructor's optional `channel_data` argument seeds
the channels: entry `i` of the sequence becomes the sole initial entry
of channel `i` for every `i < channelCount` (in index order), entries
at indices `≥ channelCount` are silently discarded (verbose warning
only), and seeding never raises the out-of-range channel-index
error. -/
theorem C10_constructor_seeding (n : Nat) (ds : List Str) (W : Int) (p : Str)
    (b : Bool) (hs : Option (List Str)) (cw : Option (List (Option Int)))
    (hl : Str) (v : Bool) :
    (Output.init (n : Int) (some ds) W p b hs cw hl v).map Output.channel_data =
      .ok ((List.range n).map (fun i => if i < ds.length then [ds.getD i []] else [])) := by
  obtain ⟨o', ho', hchar⟩ :=
    seed_enumFrom n ds 0 (Output.init0 (n : Int) W p b hs cw hl v) rfl
  have henum : ds.enum = List.enumFrom 0 ds := by rw [List.enum]
  have hmain : Output.init (n : Int) (some ds) W p b hs cw hl v =
      (Output.init0 (n : Int) W p b hs cw hl v).seed (List.enumFrom 0 ds) := by
    rw [← henum]
    rfl
  rw [hmain, ho']
  simp only [Except.map]
  congr 1
  apply List.ext_getElem?
  intro j
  rw [hchar j]
  have hcd : (Output.init0 (n : Int) W p b hs cw hl v).channel_data =
      List.replicate n [] := rfl
  rw [hcd, List.getElem?_replicate]
  by_cases hj : j < n
  · rw [if_pos hj, List.getElem?_map, List.getElem?_range hj]
    simp only [Option.map_some']
    by_cases hds : j < ds.length
    · have hcond : 0 ≤ j ∧ j - 0 < ds.length ∧ j < n := ⟨Nat.zero_le _, by omega, hj⟩
      rw [if_pos hcond, if_pos hds]
      have h0 : j - 0 = j := by omega
      rw [h0]
      rfl
    · rw [if_neg (by omega), if_neg hds]
  · rw [if_neg hj, List.getElem?_map]
    have hnone : (List.range n)[j]? = none := by
      apply List.getElem?_eq_none
      simpa using (by omega : n ≤ j)
    rw [hnone]
    rfl
